import Mathlib

/-!
Verification of the multi-worker policy-gradient agent (`hw2/agent.py`).

The development shallowly embeds the coordination-relevant parts of the
`Agent` class: the FSM transition function `get_state_transition`, the
per-phase channel interactions of `Agent.run` (modelled as explicit effect
lists and channel states), the return computation `_compute_q_values`
(over exact rationals), and the advantage/target normalization arithmetic
of `_rollout` (over the reals, with `np.mean`/`np.std` as exact mean and
population standard deviation).
-/

namespace AgentModel

/-- The `Agent.States` enumeration from the source
(`ROLLOUT`/`TRAIN`/`TERMINATE`/`UPDATE`). The spec calls `ROLLOUT` the
Collect phase and `UPDATE` the Update phase. -/
inductive States where
  | ROLLOUT
  | TRAIN
  | TERMINATE
  | UPDATE
  deriving DecidableEq, Repr

/-- The autonomous-mode transition chain of `Agent.get_state_transition`
(lines 230-237): the `if`/`elif` cascade on `prev_state`, with Python's
implicit `return None` when `prev_state` is `TERMINATE`. -/
def next_state : Option States → Option States
  | none => some States.ROLLOUT
  | some States.ROLLOUT => some States.TRAIN
  | some States.TRAIN => some States.UPDATE
  | some States.UPDATE => some States.ROLLOUT
  | some States.TERMINATE => none

/-- `Agent.get_state_transition` (lines 224-237). In synchronous mode
(`async_transitions = false`) the next state is received (blocking) from
the `state_queue`; the channel is a FIFO list and a blocking receive on an
empty channel never returns, modelled as `none`. In autonomous mode the
next state is `next_state prev_state` and the channel is untouched.
The result pairs the received state with the remaining channel contents. -/
def get_state_transition (async_transitions : Bool) (state_queue : List States)
    (prev_state : Option States) : Option (Option States × List States) :=
  if !async_transitions then
    match state_queue with
    | [] => none
    | c :: rest => some (some c, rest)
  else
    some (next_state prev_state, state_queue)

/-- The phase a single autonomous worker executes at iteration `n` of the
`run` loop, starting from `prev_state = None`: `auto_phase 0` is the first
phase executed. -/
def auto_phase : Nat → Option States
  | 0 => next_state none
  | n + 1 => next_state (auto_phase n)

/-- The Collect → Train → Update cycle, as a function of the iteration
index. -/
def cycle_phase (n : Nat) : States :=
  match n % 3 with
  | 0 => States.ROLLOUT
  | 1 => States.TRAIN
  | _ => States.UPDATE

/-- Claim C2: in autonomous mode the next phase is the pure function
`next_state` of the previous phase, satisfying f(None)=Collect,
f(Collect)=Train, f(Train)=Update, f(Update)=Collect, and the command
channel is left untouched; in synchronous mode the next phase is instead
the (blocking) receive of the head of the command channel, independent of
the previous phase. -/
theorem C2_state_transition :
    (∀ (q : List States) (prev : Option States),
        get_state_transition true q prev = some (next_state prev, q)) ∧
    next_state none = some States.ROLLOUT ∧
    next_state (some States.ROLLOUT) = some States.TRAIN ∧
    next_state (some States.TRAIN) = some States.UPDATE ∧
    next_state (some States.UPDATE) = some States.ROLLOUT ∧
    (∀ (c : States) (rest : List States) (prev : Option States),
        get_state_transition false (c :: rest) prev = some (some c, rest)) := by
  refine ⟨fun q prev => rfl, rfl, rfl, rfl, rfl, fun c rest prev => rfl⟩

lemma auto_phase_eq_cycle (n : Nat) : auto_phase n = some (cycle_phase n) := by
  induction n with
  | zero => rfl
  | succ k ih =>
      have h3 : k % 3 < 3 := Nat.mod_lt _ (by norm_num)
      have hsucc : (k + 1) % 3 = (k % 3 + 1) % 3 := by omega
      rw [auto_phase, ih]
      unfold cycle_phase
      rw [hsucc]
      interval_cases h : k % 3 <;> simp [next_state]

/-- Claim C3: the phase sequence of a single autonomous worker follows the
cycle Collect, Train, Update, Collect, …; in particular it never contains
two consecutive Update phases, so the fatal assertion at Update entry
(`assert prev_state is not Agent.States.UPDATE`) never fails: whenever the
worker enters UPDATE at iteration n+1, its previous phase (iteration n)
was not UPDATE. The autonomous transition function takes no worker-count
input, so this holds for every pool size. -/
theorem C3_autonomous_cycle (n : Nat) :
    auto_phase n = some (cycle_phase n) ∧
    (auto_phase (n + 1) = some States.UPDATE → auto_phase n ≠ some States.UPDATE) := by
  refine ⟨auto_phase_eq_cycle n, fun hup hprev => ?_⟩
  have h1 := auto_phase_eq_cycle n
  have h2 := auto_phase_eq_cycle (n + 1)
  rw [h1] at hprev
  rw [h2] at hup
  have hc1 : cycle_phase n = States.UPDATE := by injection hprev
  have hc2 : cycle_phase (n + 1) = States.UPDATE := by injection hup
  have h3 : n % 3 < 3 := Nat.mod_lt _ (by norm_num)
  have hsucc : (n + 1) % 3 = (n % 3 + 1) % 3 := by omega
  unfold cycle_phase at hc1 hc2
  rw [hsucc] at hc2
  interval_cases h : n % 3 <;> simp_all

/-- Witness for C3 at n = 1: iteration 2 is an UPDATE phase and the
theorem yields that iteration 1 was not UPDATE. -/
theorem C3_autonomous_cycle_witness : auto_phase 1 ≠ some States.UPDATE :=
  (C3_autonomous_cycle 1).2 (by decide)

/-- One message of the results channel: the dict published by `_rollout`
(lines 215-221), with each NumPy array modelled as a list of rationals. -/
structure PartialResult where
  observations : List ℚ
  actions : List ℚ
  advantages : List ℚ
  normalized_q_n : List ℚ
  baseline_prediction : List ℚ
  deriving DecidableEq, Repr

/-- The consolidation accumulators of the TRAIN branch (lines 286-290),
initially all empty. -/
structure Consolidated where
  observations : List ℚ
  actions : List ℚ
  advantages : List ℚ
  normalized_q_n : List ℚ
  baseline_prediction : List ℚ
  deriving DecidableEq, Repr

/-- The empty accumulators at TRAIN entry. -/
def emptyConsolidated : Consolidated :=
  ⟨[], [], [], [], []⟩

/-- One iteration of the TRAIN consolidation loop body (lines 292-297):
`list.extend` each field of the received result onto the accumulator. -/
def extend_results (acc : Consolidated) (r : PartialResult) : Consolidated where
  observations := acc.observations ++ r.observations
  actions := acc.actions ++ r.actions
  advantages := acc.advantages ++ r.advantages
  normalized_q_n := acc.normalized_q_n ++ r.normalized_q_n
  baseline_prediction := acc.baseline_prediction ++ r.baseline_prediction

/-- The TRAIN drain loop `for _ in range(self.num_agents): results.get()`
(lines 291-297): `num_agents` blocking receives from the FIFO results
channel, each followed by the accumulator extension. A receive from an
empty channel blocks forever, modelled as `none`. Returns the
consolidated batch and the remaining channel contents. -/
def drain_results : Nat → List PartialResult → Consolidated →
    Option (Consolidated × List PartialResult)
  | 0, channel, acc => some (acc, channel)
  | _ + 1, [], _ => none
  | n + 1, r :: rest, acc => drain_results n rest (extend_results acc r)

/-- The TRAIN aggregation step (lines 286-299): drain `num_agents` results
starting from empty accumulators, then `assert self.results.empty()`;
a failed assertion is fatal, modelled as `none`. -/
def train_drain (num_agents : Nat) (channel : List PartialResult) :
    Option (Consolidated × List PartialResult) :=
  match drain_results num_agents channel emptyConsolidated with
  | none => none
  | some (acc, rest) => if rest = [] then some (acc, rest) else none

lemma drain_results_all (channel : List PartialResult) (acc : Consolidated) :
    drain_results channel.length channel acc =
      some (channel.foldl extend_results acc, []) := by
  induction channel generalizing acc with
  | nil => rfl
  | cons r rest ih => simpa [drain_results] using ih (extend_results acc r)

lemma foldl_extend_observations (channel : List PartialResult) (acc : Consolidated) :
    (channel.foldl extend_results acc).observations =
      acc.observations ++ (channel.map PartialResult.observations).flatten := by
  induction channel generalizing acc with
  | nil => simp
  | cons r rest ih =>
      rw [List.foldl_cons, ih (extend_results acc r)]
      simp [extend_results]

lemma foldl_extend_actions (channel : List PartialResult) (acc : Consolidated) :
    (channel.foldl extend_results acc).actions =
      acc.actions ++ (channel.map PartialResult.actions).flatten := by
  induction channel generalizing acc with
  | nil => simp
  | cons r rest ih =>
      rw [List.foldl_cons, ih (extend_results acc r)]
      simp [extend_results]

lemma foldl_extend_advantages (channel : List PartialResult) (acc : Consolidated) :
    (channel.foldl extend_results acc).advantages =
      acc.advantages ++ (channel.map PartialResult.advantages).flatten := by
  induction channel generalizing acc with
  | nil => simp
  | cons r rest ih =>
      rw [List.foldl_cons, ih (extend_results acc r)]
      simp [extend_results]

/-- Claim C1: when the results channel holds exactly `num_agents`
PartialResults at TRAIN entry, the drain consumes exactly `num_agents` of
them, the consolidated observations, actions and advantages are the
concatenations of the received fields in arrival order, the channel is
empty immediately after the drain, and the fatal emptiness assertion
passes. -/
theorem C1_train_drains_exactly (num_agents : Nat) (channel : List PartialResult)
    (h : channel.length = num_agents) :
    ∃ acc : Consolidated,
      train_drain num_agents channel = some (acc, []) ∧
      acc.observations = (channel.map PartialResult.observations).flatten ∧
      acc.actions = (channel.map PartialResult.actions).flatten ∧
      acc.advantages = (channel.map PartialResult.advantages).flatten := by
  subst h
  refine ⟨channel.foldl extend_results emptyConsolidated, ?_, ?_, ?_, ?_⟩
  · rw [train_drain, drain_results_all]
    simp
  · simp [foldl_extend_observations, emptyConsolidated]
  · simp [foldl_extend_actions, emptyConsolidated]
  · simp [foldl_extend_advantages, emptyConsolidated]

/-- Witness for C1 with two concrete results on the channel. -/
theorem C1_train_drains_exactly_witness :
    ∃ acc : Consolidated,
      train_drain 2 [⟨[1], [2], [3], [], []⟩, ⟨[4], [5], [6], [], []⟩] = some (acc, []) ∧
      acc.observations = [(1 : ℚ), 4] ∧
      acc.actions = [(2 : ℚ), 5] ∧
      acc.advantages = [(3 : ℚ), 6] := by
  obtain ⟨acc, h1, h2, h3, h4⟩ :=
    C1_train_drains_exactly 2 [⟨[1], [2], [3], [], []⟩, ⟨[4], [5], [6], [], []⟩] rfl
  exact ⟨acc, h1, by rw [h2]; rfl, by rw [h3]; rfl, by rw [h4]; rfl⟩

/-- A single observable channel interaction of a `run`-loop branch:
putting weights on the `network_weights` channel, a (blocking) get of
weights from it, `state_queue.task_done()`, the busy-wait
`while not self.state_queue.empty(): pass`, and `time.sleep(0.1)`. -/
inductive Effect (W : Type) where
  | put_weights (w : W)
  | get_weights
  | task_done
  | busy_wait_empty
  | sleep
  deriving DecidableEq, Repr

/-- `self.EPOCHES_PER_SYNC` (line 83). -/
def EPOCHES_PER_SYNC : Nat := 5

/-- The completion protocol of the TRAIN branch (lines 307-321), given the
mode flag, the current `epoch_since_last_sync` counter, the freshly
trained weights and `num_agents`. Returns the channel effects emitted, in
order, and the new counter value. Autonomous mode publishes the weights
once and resets the counter when the counter has reached
`EPOCHES_PER_SYNC`, and otherwise only increments it; synchronous mode
publishes one copy of the weights per agent and then acknowledges the
command. -/
def train_finish (W : Type) (async_transitions : Bool)
    (epoch_since_last_sync : Nat) (weights : W) (num_agents : Nat) :
    List (Effect W) × Nat :=
  if async_transitions then
    if epoch_since_last_sync ≥ EPOCHES_PER_SYNC then
      ([Effect.put_weights weights], 1)
    else
      ([], epoch_since_last_sync + 1)
  else
    (List.replicate num_agents (Effect.put_weights weights) ++ [Effect.task_done],
      epoch_since_last_sync)

/-- The `epoch_since_last_sync` counter held by an autonomous worker just
before its (k+1)-th TRAIN phase: it is initialized to 1 in `__init__`
(line 81) and evolves by the TRAIN completion protocol. -/
def epoch_counter : Nat → Nat
  | 0 => 1
  | k + 1 => (train_finish Unit true (epoch_counter k) () 1).2

/-- How many Parameters messages the autonomous worker publishes during
its (k+1)-th TRAIN phase. -/
def train_publish_count (k : Nat) : Nat :=
  ((train_finish Unit true (epoch_counter k) () 1).1).length

lemma epoch_counter_eq (k : Nat) : epoch_counter k = k % 5 + 1 := by
  induction k with
  | zero => rfl
  | succ m ih =>
      have h5 : m % 5 < 5 := Nat.mod_lt _ (by norm_num)
      rw [epoch_counter, ih, train_finish]
      simp only [if_true, EPOCHES_PER_SYNC]
      split <;> omega

/-- Claim C6: in autonomous mode the counter before the (k+1)-th TRAIN is
k % 5 + 1, and the worker publishes Parameters exactly once on its 5th,
10th, 15th, … TRAIN phase (those k with (k+1) divisible by 5) and
publishes nothing on every other TRAIN phase. -/
theorem C6_autonomous_sync_every_five (k : Nat) :
    epoch_counter k = k % 5 + 1 ∧
    train_publish_count k = if (k + 1) % 5 = 0 then 1 else 0 := by
  refine ⟨epoch_counter_eq k, ?_⟩
  have h5 : k % 5 < 5 := Nat.mod_lt _ (by norm_num)
  rw [train_publish_count, epoch_counter_eq, train_finish]
  simp only [if_true, EPOCHES_PER_SYNC]
  have : (k % 5 + 1 ≥ 5) ↔ ((k + 1) % 5 = 0) := by omega
  split
  · rw [if_pos (this.mp (by assumption))]
    rfl
  · rw [if_neg (fun hc => (by assumption : ¬ k % 5 + 1 ≥ 5) (this.mpr hc))]
    rfl

/-- Claim C7: in synchronous mode every TRAIN phase publishes exactly
`num_agents` copies of the fresh weights on the parameters channel and
then acknowledges the command; the number of publish effects is exactly
`num_agents`, the counter is untouched. -/
theorem C7_sync_train_publishes_per_agent (W : Type) (w : W)
    (num_agents c : Nat) :
    train_finish W false c w num_agents =
      (List.replicate num_agents (Effect.put_weights w) ++ [Effect.task_done], c) ∧
    ((train_finish W false c w num_agents).1.filter
        (fun e => match e with | Effect.put_weights _ => true | _ => false)).length =
      num_agents := by
  refine ⟨rfl, ?_⟩
  rw [show (train_finish W false c w num_agents).1 =
      List.replicate num_agents (Effect.put_weights w) ++ [Effect.task_done] from rfl]
  rw [List.filter_append]
  simp [List.filter_replicate]

/-- The completion protocol of the ROLLOUT branch (lines 268-279), after
`_rollout` returns: the busy-wait on command-channel emptiness and the
`task_done` acknowledgment are executed unconditionally — the branch never
consults `async_transitions`, so the same effects occur in both modes. -/
def rollout_finish (W : Type) (async_transitions : Bool) : List (Effect W) :=
  [Effect.busy_wait_empty, Effect.task_done]

/-- The body of the UPDATE branch (lines 325-342) after the entry
assertion: the blocking get of fresh weights, the settle sleep, and the
`task_done` acknowledgment, all executed unconditionally in both modes. -/
def update_finish (W : Type) (async_transitions : Bool) : List (Effect W) :=
  [Effect.get_weights, Effect.sleep, Effect.task_done]

/-- Counterexample to claim C8 at the concrete mode flag
`async_transitions = true`: the autonomous ROLLOUT completion still
busy-waits on command-channel emptiness and acknowledges via `task_done`,
and the autonomous UPDATE completion also acknowledges via `task_done` —
the command channel is touched in autonomous mode. -/
theorem C8_counterexample :
    Effect.busy_wait_empty ∈ rollout_finish Unit true ∧
    Effect.task_done ∈ rollout_finish Unit true ∧
    Effect.task_done ∈ update_finish Unit true := by
  decide

/-- Claim C8 as amended: the ROLLOUT and UPDATE completion effects are
identical in the two modes — in autonomous mode, exactly as in synchronous
mode, the worker busy-waits on command-channel emptiness and calls
`task_done` after Collect, and an Update acknowledges via `task_done`
before looping back to Collect. -/
theorem C8_amended_command_channel_touched (W : Type) (b : Bool) :
    rollout_finish W b = [Effect.busy_wait_empty, Effect.task_done] ∧
    rollout_finish W b = rollout_finish W (!b) ∧
    update_finish W b = [Effect.get_weights, Effect.sleep, Effect.task_done] ∧
    update_finish W b = update_finish W (!b) := by
  exact ⟨rfl, rfl, rfl, rfl⟩

/-- The four shared IPC channels of the system (lines 64-68), with the
weights and path payload types abstract, plus the running count of
`state_queue.task_done()` acknowledgments issued so far. -/
structure Channels (W P : Type) where
  state_queue : List States
  results : List PartialResult
  network_weights : List W
  paths_queue : List P
  task_done_count : Nat

/-- One sync-mode worker processing a Terminate command (lines 344-351):
the worker pops `TERMINATE` off the command channel (via
`get_state_transition`), acknowledges it with `task_done`, and fatally
asserts that the results, parameters and trajectory channels are all
empty; a failed assertion (or a command-channel head other than
`TERMINATE`) is `none`. On success it returns the channels with one
command consumed and the worker's terminal `prev_state`, `TERMINATE`, at
which the `run` loop breaks so no further phase executes. -/
def terminate_step {W P : Type} (ch : Channels W P) :
    Option (Channels W P × States) :=
  match ch.state_queue with
  | States.TERMINATE :: rest =>
      if ch.results.isEmpty && ch.network_weights.isEmpty && ch.paths_queue.isEmpty then
        some ({ ch with state_queue := rest,
                        task_done_count := ch.task_done_count + 1 },
              States.TERMINATE)
      else none
  | _ => none

/-- Every worker of an n-worker pool processing its Terminate command in
turn. -/
def terminate_all {W P : Type} : Nat → Channels W P → Option (Channels W P)
  | 0, ch => some ch
  | n + 1, ch =>
      match terminate_step ch with
      | some (next, _) => terminate_all n next
      | none => none

/-- Claim C9: a worker processing Terminate acknowledges the command,
passes the fatal channel-emptiness assertions, and ends with terminal
previous phase `TERMINATE` (the loop breaks); and when the command channel
holds exactly the pool's `num_agents` Terminate assignments and the other
three channels are empty, after every worker has processed its Terminate
all four channels, the command channel included, are empty and each worker
acknowledged exactly once. -/
theorem C9_terminate_clean_shutdown {W P : Type} (num_agents : Nat)
    (ch : Channels W P)
    (hcmd : ch.state_queue = List.replicate num_agents States.TERMINATE)
    (hres : ch.results = []) (hw : ch.network_weights = [])
    (hp : ch.paths_queue = []) :
    (∀ ch' : Channels W P, ch'.state_queue.head? = some States.TERMINATE →
        ch'.results = [] → ch'.network_weights = [] → ch'.paths_queue = [] →
        terminate_step ch' =
          some ({ ch' with state_queue := ch'.state_queue.tail,
                           task_done_count := ch'.task_done_count + 1 },
                States.TERMINATE)) ∧
    terminate_all num_agents ch =
      some { state_queue := [], results := [], network_weights := [],
             paths_queue := [],
             task_done_count := ch.task_done_count + num_agents } := by
  constructor
  · intro ch' hhead hr hnw hpq
    match hq : ch'.state_queue with
    | [] => rw [hq] at hhead; simp at hhead
    | s :: rest =>
        rw [hq] at hhead
        simp at hhead
        subst hhead
        rw [terminate_step, hq]
        simp [hr, hnw, hpq]
  · induction num_agents generalizing ch with
    | zero =>
        obtain ⟨q, r, nw, p, t⟩ := ch
        simp at hcmd hres hw hp
        subst hcmd hres hw hp
        rfl
    | succ m ih =>
        rw [terminate_all, terminate_step, hcmd]
        simp only [List.replicate, hres, hw, hp, List.isEmpty_nil, Bool.and_self,
          if_true]
        have hrec := ih { ch with
            state_queue := List.replicate m States.TERMINATE,
            task_done_count := ch.task_done_count + 1 } rfl hres hw hp
        simp only [hres, hw, hp] at hrec
        have harith : ch.task_done_count + 1 + m = ch.task_done_count + (m + 1) := by
          omega
        rw [harith] at hrec
        exact hrec

/-- Witness for C9: a pool of two workers whose command channel holds two
Terminate assignments and whose other channels are empty shuts down
cleanly. -/
theorem C9_terminate_clean_shutdown_witness :
    terminate_all 2 (⟨[States.TERMINATE, States.TERMINATE], [], ([] : List Unit),
        ([] : List Unit), 0⟩ : Channels Unit Unit) =
      some ⟨[], [], [], [], 2⟩ :=
  (C9_terminate_clean_shutdown 2 _ rfl rfl rfl rfl).2

/-- The inner loop of `_compute_q_values` (lines 362-369) for one path:
`q = 0`, then for each reward of the reversed reward array
`q = reward + q * gamma` is appended to `q_trajectory`, and the list is
reversed at the end. Rewards are modelled as exact rationals. -/
def compute_q_trajectory (gamma : ℚ) (rewards : List ℚ) : List ℚ :=
  ((rewards.reverse.foldl
      (fun (acc : ℚ × List ℚ) reward =>
        let q := reward + acc.1 * gamma
        (q, acc.2 ++ [q]))
      (0, [])).2).reverse

/-- The per-path body of `_compute_q_values` (lines 361-376): the
reward-to-go trajectory, replaced by `[q_trajectory[0]] * len(q_trajectory)`
when `reward_to_go` is off. (Python's `q_trajectory[0]` presupposes a
non-empty path, which `_simulate` guarantees; on `[]` the model yields
`[]`.) -/
def path_q_values (gamma : ℚ) (rewards : List ℚ) (reward_to_go : Bool) : List ℚ :=
  if reward_to_go then compute_q_trajectory gamma rewards
  else
    List.replicate (compute_q_trajectory gamma rewards).length
      ((compute_q_trajectory gamma rewards).headD 0)

/-- `Agent._compute_q_values` (lines 357-378): `q_n.extend(q_trajectory)`
over the paths, each path given by its reward array. -/
def compute_q_values (gamma : ℚ) (paths : List (List ℚ)) (reward_to_go : Bool) :
    List ℚ :=
  paths.foldl (fun q_n rewards => q_n ++ path_q_values gamma rewards reward_to_go) []

/-- The full-trajectory discounted return
r0 + gamma * r1 + gamma ^ 2 * r2 + …, stated recursively. -/
def discounted_return (gamma : ℚ) : List ℚ → ℚ
  | [] => 0
  | r :: rest => r + gamma * discounted_return gamma rest

/-- Structural form of the reward-to-go trajectory: entry i is the
discounted return of the suffix starting at i. -/
def q_trajectory_rec (gamma : ℚ) : List ℚ → List ℚ
  | [] => []
  | r :: rest => discounted_return gamma (r :: rest) :: q_trajectory_rec gamma rest

lemma compute_q_trajectory_fold (gamma : ℚ) (rewards : List ℚ) :
    rewards.reverse.foldl
        (fun (acc : ℚ × List ℚ) reward =>
          let q := reward + acc.1 * gamma
          (q, acc.2 ++ [q]))
        (0, []) =
      (discounted_return gamma rewards, (q_trajectory_rec gamma rewards).reverse) := by
  induction rewards with
  | nil => rfl
  | cons r rest ih =>
      rw [List.reverse_cons, List.foldl_append, ih]
      simp only [List.foldl_cons, List.foldl_nil, q_trajectory_rec,
        List.reverse_cons, discounted_return]
      rw [mul_comm (discounted_return gamma rest) gamma]

lemma compute_q_trajectory_eq_rec (gamma : ℚ) (rewards : List ℚ) :
    compute_q_trajectory gamma rewards = q_trajectory_rec gamma rewards := by
  rw [compute_q_trajectory, compute_q_trajectory_fold]
  exact List.reverse_reverse _

lemma q_trajectory_rec_length (gamma : ℚ) (rewards : List ℚ) :
    (q_trajectory_rec gamma rewards).length = rewards.length := by
  induction rewards with
  | nil => rfl
  | cons r rest ih => simp [q_trajectory_rec, ih]

lemma q_trajectory_rec_headD (gamma : ℚ) (rewards : List ℚ) :
    (q_trajectory_rec gamma rewards).headD 0 = discounted_return gamma rewards := by
  cases rewards with
  | nil => rfl
  | cons r rest => rfl

/-- Claim C4: with reward-to-go on, the returns for a path with rewards
[r0, r1, r2] are [r0 + g·r1 + g²·r2, r1 + g·r2, r2]; with reward-to-go
off, the returns for a path with any reward list are the full-trajectory
discounted return repeated once per timestep (every entry equals the
first). -/
theorem C4_reward_to_go (gamma r0 r1 r2 : ℚ) (rewards : List ℚ) :
    compute_q_values gamma [[r0, r1, r2]] true =
      [r0 + gamma * r1 + gamma ^ 2 * r2, r1 + gamma * r2, r2] ∧
    compute_q_values gamma [rewards] false =
      List.replicate rewards.length (discounted_return gamma rewards) := by
  constructor
  · simp only [compute_q_values, List.foldl_cons, List.foldl_nil, path_q_values,
      if_true, compute_q_trajectory_eq_rec, q_trajectory_rec, discounted_return,
      List.nil_append]
    refine congrArg₂ _ (by ring) (congrArg₂ _ (by ring) (congrArg₂ _ (by ring) rfl))
  · simp only [compute_q_values, List.foldl_cons, List.foldl_nil, path_q_values,
      Bool.false_eq_true, if_false, compute_q_trajectory_eq_rec,
      q_trajectory_rec_length, q_trajectory_rec_headD, List.nil_append]

/-- `np.mean`, on a batch modelled as a list of exact reals. -/
noncomputable def mean (l : List ℝ) : ℝ := l.sum / l.length

/-- The mean squared deviation, so that `std` below is `np.std`: the
population standard deviation (`ddof = 0`). -/
noncomputable def variance (l : List ℝ) : ℝ :=
  (l.map (fun x => (x - mean l) ^ 2)).sum / l.length

/-- `np.std`. -/
noncomputable def std (l : List ℝ) : ℝ := Real.sqrt (variance l)

/-- The advantage normalization of `_rollout` (line 177):
`adv_n = (adv_n - np.mean(adv_n)) / (np.std(adv_n) + 1e-8)`. -/
noncomputable def normalize_adv (adv : List ℝ) : List ℝ :=
  adv.map fun x => (x - mean adv) / (std adv + 1e-8)

/-- The baseline-fit targets of `_rollout` (line 196):
`normalize_q_n = q_n / np.std(q_n) - np.mean(q_n)` — the division by the
standard deviation is applied to `q_n` before the mean is subtracted. -/
noncomputable def normalize_q_n_targets (q_n : List ℝ) : List ℝ :=
  q_n.map fun x => x / std q_n - mean q_n

lemma sum_map_sub_const (l : List ℝ) (f : ℝ → ℝ) (c : ℝ) :
    (l.map fun x => f x - c).sum = (l.map f).sum - l.length * c := by
  induction l with
  | nil => simp
  | cons a t ih =>
      simp only [List.map_cons, List.sum_cons, ih, List.length_cons]
      push_cast
      ring

lemma sum_map_div (l : List ℝ) (f : ℝ → ℝ) (c : ℝ) :
    (l.map fun x => f x / c).sum = (l.map f).sum / c := by
  induction l with
  | nil => simp
  | cons a t ih => simp [ih, add_div]

lemma sum_map_sq_div (l : List ℝ) (f : ℝ → ℝ) (c : ℝ) :
    (l.map fun x => (f x / c) ^ 2).sum = (l.map fun x => f x ^ 2).sum / c ^ 2 := by
  induction l with
  | nil => simp
  | cons a t ih =>
      rw [List.map_cons, List.sum_cons, ih, List.map_cons, List.sum_cons,
        div_pow, add_div]

lemma variance_nonneg (l : List ℝ) : 0 ≤ variance l := by
  apply div_nonneg _ (Nat.cast_nonneg _)
  apply List.sum_nonneg
  intro x hx
  obtain ⟨y, _, rfl⟩ := List.mem_map.mp hx
  positivity

lemma std_nil : std ([] : List ℝ) = 0 := by
  simp [std, variance]

lemma ne_nil_of_std_pos (l : List ℝ) (h : 0 < std l) : l ≠ [] := by
  intro he
  rw [he, std_nil] at h
  exact lt_irrefl 0 h

lemma mean_center_div (l : List ℝ) (c : ℝ) :
    mean (l.map fun x => (x - mean l) / c) = 0 := by
  rcases eq_or_ne l [] with rfl | hl
  · simp [mean]
  · have hn : (l.length : ℝ) ≠ 0 :=
      Nat.cast_ne_zero.mpr (fun h0 => hl (List.length_eq_zero.mp h0))
    rw [mean, sum_map_div l (fun x => x - mean l) c,
      sum_map_sub_const l (fun x => x) (mean l), List.length_map]
    have hz : (l.map fun x => x).sum - l.length * mean l = 0 := by
      rw [List.map_id', mean]
      field_simp
    rw [hz, zero_div, zero_div]

lemma variance_center_div (l : List ℝ) (c : ℝ) :
    variance (l.map fun x => (x - mean l) / c) = variance l / c ^ 2 := by
  rcases eq_or_ne l [] with rfl | hl
  · simp [variance, mean]
  · unfold variance
    rw [mean_center_div, List.length_map, List.map_map]
    simp only [Function.comp_def, sub_zero]
    rw [sum_map_sq_div l (fun x => x - mean l) c, div_right_comm]

lemma std_center_div (l : List ℝ) (c : ℝ) (hc : 0 < c) :
    std (l.map fun x => (x - mean l) / c) = std l / c := by
  unfold std
  rw [variance_center_div, Real.sqrt_div (variance_nonneg l), Real.sqrt_sq hc.le]

/-- Claim C5: whenever the advantages have positive standard deviation,
the normalized advantages `(adv - mean(adv)) / (std(adv) + 1e-8)` have
mean exactly 0, standard deviation exactly `std(adv) / (std(adv) + 1e-8)`,
and the deviation of that standard deviation from 1 is below the
stabilization ratio `1e-8 / std(adv)`. -/
theorem C5_advantage_normalization (adv : List ℝ) (h : 0 < std adv) :
    mean (normalize_adv adv) = 0 ∧
    std (normalize_adv adv) = std adv / (std adv + 1e-8) ∧
    |std (normalize_adv adv) - 1| < 1e-8 / std adv := by
  have heps : (0 : ℝ) < 1e-8 := by norm_num
  have hc : (0 : ℝ) < std adv + 1e-8 := by linarith
  have h2 : std (normalize_adv adv) = std adv / (std adv + 1e-8) :=
    std_center_div adv _ hc
  refine ⟨mean_center_div adv _, h2, ?_⟩
  rw [h2, div_sub_one (ne_of_gt hc), sub_add_cancel_left, neg_div, abs_neg,
    abs_of_pos (div_pos heps hc)]
  exact div_lt_div_of_pos_left heps h (lt_add_of_pos_right _ heps)

/-- Witness for C5 on the concrete advantages [0, 2], whose standard
deviation is 1. -/
theorem C5_advantage_normalization_witness :
    0 < std [(0 : ℝ), 2] ∧
    mean (normalize_adv [(0 : ℝ), 2]) = 0 ∧
    std (normalize_adv [(0 : ℝ), 2]) = std [(0 : ℝ), 2] / (std [(0 : ℝ), 2] + 1e-8) ∧
    |std (normalize_adv [(0 : ℝ), 2]) - 1| < 1e-8 / std [(0 : ℝ), 2] := by
  have hvar : variance [(0 : ℝ), 2] = 1 := by
    norm_num [variance, mean]
  have hs : 0 < std [(0 : ℝ), 2] := by
    rw [std, hvar, Real.sqrt_one]
    norm_num
  exact ⟨hs, C5_advantage_normalization [(0 : ℝ), 2] hs⟩

lemma mean_targets (q : List ℝ) (hq : q ≠ []) (hs : std q ≠ 0) :
    mean (normalize_q_n_targets q) = mean q / std q - mean q := by
  have hn : (q.length : ℝ) ≠ 0 :=
    Nat.cast_ne_zero.mpr (fun h0 => hq (List.length_eq_zero.mp h0))
  rw [normalize_q_n_targets, mean,
    sum_map_sub_const q (fun x => x / std q) (mean q),
    sum_map_div q (fun x => x) (std q), List.length_map, List.map_id', mean]
  field_simp
  ring

/-- Claim C10: with the neural-network baseline enabled, the baseline-fit
targets are `q_n / std(q_n) - mean(q_n)` — `q_n` is divided by the
standard deviation first and the (undivided) mean is subtracted
afterwards — and their mean is `mean(q_n)/std(q_n) - mean(q_n)`; hence for
a batch with nonzero mean and standard deviation other than 1 the targets
do not have zero mean together with unit standard deviation. -/
theorem C10_baseline_targets (q : List ℝ) (hm : mean q ≠ 0)
    (hs1 : std q ≠ 1) (hs : 0 < std q) :
    normalize_q_n_targets q = q.map (fun x => x / std q - mean q) ∧
    mean (normalize_q_n_targets q) = mean q / std q - mean q ∧
    ¬ (mean (normalize_q_n_targets q) = 0 ∧
        std (normalize_q_n_targets q) = 1) := by
  have hq : q ≠ [] := ne_nil_of_std_pos q hs
  have hmt : mean (normalize_q_n_targets q) = mean q / std q - mean q :=
    mean_targets q hq hs.ne'
  refine ⟨rfl, hmt, fun hboth => ?_⟩
  have h0 := hboth.1
  rw [hmt, sub_eq_zero] at h0
  have h0' : mean q = mean q * std q := (div_eq_iff hs.ne').mp h0
  have h1 : (1 : ℝ) = std q := by
    nth_rewrite 1 [← mul_one (mean q)] at h0'
    exact mul_left_cancel₀ hm h0'
  exact hs1 h1.symm

/-- Witness for C10 on the concrete returns [0, 4], with mean 2 and
standard deviation 2. -/
theorem C10_baseline_targets_witness :
    mean [(0 : ℝ), 4] ≠ 0 ∧ std [(0 : ℝ), 4] ≠ 1 ∧ 0 < std [(0 : ℝ), 4] ∧
    ¬ (mean (normalize_q_n_targets [(0 : ℝ), 4]) = 0 ∧
        std (normalize_q_n_targets [(0 : ℝ), 4]) = 1) := by
  have hmean : mean [(0 : ℝ), 4] = 2 := by norm_num [mean]
  have hvar : variance [(0 : ℝ), 4] = 4 := by norm_num [variance, mean]
  have hstd : std [(0 : ℝ), 4] = 2 := by
    rw [std, hvar, show (4 : ℝ) = 2 ^ 2 by norm_num, Real.sqrt_sq (by norm_num)]
  have hm : mean [(0 : ℝ), 4] ≠ 0 := by rw [hmean]; norm_num
  have hs1 : std [(0 : ℝ), 4] ≠ 1 := by rw [hstd]; norm_num
  have hs : 0 < std [(0 : ℝ), 4] := by rw [hstd]; norm_num
  exact ⟨hm, hs1, hs, (C10_baseline_targets [(0 : ℝ), 4] hm hs1 hs).2.2⟩

end AgentModel
